import Mathlib

/-!
Verification of the line-framing, lifecycle and configuration logic of the
`go-linux-serial` package (`serial.go`).

Go strings are modelled as lists of bytes (`List Nat`).  The unbounded
inner loops of `ReadLine` / `ReadLinesLoop` are modelled with explicit fuel:
a `none` result means the loop did not terminate within the given fuel, and
termination lemmas show that for a non-empty delimiter a fuel of
`buffer.length + 1` always suffices, while for the empty delimiter no fuel
ever suffices (the loop diverges).
-/

namespace GoSerial

/-- Bytes of a Go string, modelled as natural numbers. -/
abbrev Byte := Nat

/-- Core scan of Go `strings.Index`: first position in `hay` at which
`needle` occurs as a contiguous block, `none` standing for Go's `-1`. -/
def stringsIndexAux (needle : List Byte) : List Byte → Option Nat
  | [] => if needle.isEmpty then some 0 else none
  | b :: rest =>
    if needle.isPrefixOf (b :: rest) then some 0
    else (stringsIndexAux needle rest).map (· + 1)

/-- Go `strings.Index s substr` (argument order as in Go). -/
def stringsIndex (s substr : List Byte) : Option Nat := stringsIndexAux substr s

theorem stringsIndex_nil_needle (s : List Byte) : stringsIndex s [] = some 0 := by
  cases s <;> simp [stringsIndex, stringsIndexAux, List.isPrefixOf]

/-- Bridge between the executable `isPrefixOf` and the `<+:` relation. -/
theorem isPrefixOf_iff {l₁ l₂ : List Byte} : l₁.isPrefixOf l₂ = true ↔ l₁ <+: l₂ :=
  List.isPrefixOf_iff_prefix

/-- At the reported index, the needle occurs. -/
theorem stringsIndex_occurrence {s n : List Byte} {i : Nat}
    (h : stringsIndex s n = some i) : n <+: s.drop i := by
  induction s generalizing i with
  | nil =>
    by_cases hn : n.isEmpty
    · simp [stringsIndex, stringsIndexAux, hn] at h
      subst h
      simp [List.isEmpty_iff.mp hn]
    · simp [stringsIndex, stringsIndexAux, hn] at h
  | cons b rest ih =>
    rw [stringsIndex, stringsIndexAux] at h
    by_cases hp : n.isPrefixOf (b :: rest)
    · simp [hp] at h
      subst h
      simpa using isPrefixOf_iff.mp hp
    · simp [hp] at h
      obtain ⟨j, hj, hij⟩ := h
      subst hij
      simpa using ih hj

/-- Before the reported index, the needle does not occur. -/
theorem stringsIndex_min {s n : List Byte} {i : Nat}
    (h : stringsIndex s n = some i) : ∀ j < i, ¬ n <+: s.drop j := by
  induction s generalizing i with
  | nil =>
    by_cases hn : n.isEmpty
    · simp [stringsIndex, stringsIndexAux, hn] at h
      subst h
      intro j hj
      exact absurd hj (Nat.not_lt_zero j)
    · simp [stringsIndex, stringsIndexAux, hn] at h
  | cons b rest ih =>
    rw [stringsIndex, stringsIndexAux] at h
    by_cases hp : n.isPrefixOf (b :: rest)
    · simp [hp] at h
      subst h
      intro j hj
      exact absurd hj (Nat.not_lt_zero j)
    · simp [hp] at h
      obtain ⟨j₀, hj₀, hij⟩ := h
      subst hij
      intro j hj hpre
      match j with
      | 0 =>
        exact hp (isPrefixOf_iff.mpr (by simpa using hpre))
      | j' + 1 =>
        exact ih hj₀ j' (by omega) (by simpa using hpre)

/-- When the scan reports no index, the needle occurs nowhere. -/
theorem stringsIndex_none {s n : List Byte}
    (h : stringsIndex s n = none) : ∀ j, ¬ n <+: s.drop j := by
  induction s with
  | nil =>
    by_cases hn : n.isEmpty
    · simp [stringsIndex, stringsIndexAux, hn] at h
    · intro j hpre
      rw [List.drop_nil] at hpre
      exact hn (by simpa [List.isEmpty_iff] using List.prefix_nil.mp hpre)
  | cons b rest ih =>
    rw [stringsIndex, stringsIndexAux] at h
    by_cases hp : n.isPrefixOf (b :: rest)
    · simp [hp] at h
    · simp [hp] at h
      intro j hpre
      match j with
      | 0 => exact hp (isPrefixOf_iff.mpr (by simpa using hpre))
      | j' + 1 => exact ih h j' (by simpa using hpre)

/-- The reported index plus the needle length stays within the haystack. -/
theorem stringsIndex_bound {s n : List Byte} {i : Nat}
    (h : stringsIndex s n = some i) : i + n.length ≤ s.length := by
  induction s generalizing i with
  | nil =>
    by_cases hn : n.isEmpty
    · simp [stringsIndex, stringsIndexAux, hn] at h
      subst h
      simp [List.isEmpty_iff.mp hn]
    · simp [stringsIndex, stringsIndexAux, hn] at h
  | cons b rest ih =>
    rw [stringsIndex, stringsIndexAux] at h
    by_cases hp : n.isPrefixOf (b :: rest)
    · simp [hp] at h
      subst h
      simpa using (isPrefixOf_iff.mp hp).length_le
    · simp [hp] at h
      obtain ⟨j, hj, hij⟩ := h
      subst hij
      have := ih hj
      simp only [List.length_cons]
      omega

/-- A list that fits inside the left part of an append and is a prefix of the
append is a prefix of the left part. -/
theorem prefix_of_append_left {n l₁ l₂ : List Byte}
    (h : n <+: l₁ ++ l₂) (hlen : n.length ≤ l₁.length) : n <+: l₁ := by
  have ht : n = (l₁ ++ l₂).take n.length := List.prefix_iff_eq_take.mp h
  rw [List.take_append_eq_append_take, Nat.sub_eq_zero_of_le hlen,
    List.take_zero, List.append_nil] at ht
  rw [ht]
  exact List.take_prefix _ _

/-- The first occurrence is unchanged by extending the haystack on the right. -/
theorem stringsIndex_append {s n : List Byte} {i : Nat} (t : List Byte)
    (h : stringsIndex s n = some i) : stringsIndex (s ++ t) n = some i := by
  induction s generalizing i with
  | nil =>
    by_cases hn : n.isEmpty
    · simp [stringsIndex, stringsIndexAux, hn] at h
      subst h
      have : n = [] := List.isEmpty_iff.mp hn
      subst this
      simpa using stringsIndex_nil_needle t
    · simp [stringsIndex, stringsIndexAux, hn] at h
  | cons b rest ih =>
    rw [stringsIndex, stringsIndexAux] at h
    by_cases hp : n.isPrefixOf (b :: rest)
    · simp [hp] at h
      subst h
      rw [stringsIndex, List.cons_append, stringsIndexAux]
      have : n.isPrefixOf (b :: (rest ++ t)) = true := by
        rw [isPrefixOf_iff]
        exact (isPrefixOf_iff.mp hp).trans (List.prefix_append _ t)
      simp [this]
    · simp [hp] at h
      obtain ⟨j, hj, hij⟩ := h
      subst hij
      rw [stringsIndex, List.cons_append, stringsIndexAux]
      have hnp : ¬ n.isPrefixOf (b :: (rest ++ t)) = true := by
        intro hcon
        have hlen : n.length ≤ (b :: rest).length := by
          have := stringsIndex_bound hj
          simp only [List.length_cons]
          omega
        exact hp (isPrefixOf_iff.mpr
          (prefix_of_append_left (by simpa using isPrefixOf_iff.mp hcon) hlen))
      have hrest : stringsIndexAux n (rest ++ t) = some j := ih hj
      simp [hnp, hrest]

/-- An occurrence somewhere in the middle, phrased through `drop`. -/
theorem infix_iff_exists_drop {n s : List Byte} :
    n <:+: s ↔ ∃ j, j + n.length ≤ s.length ∧ n <+: s.drop j := by
  constructor
  · rintro ⟨u, v, rfl⟩
    refine ⟨u.length, by simp, ?_⟩
    rw [List.append_assoc, List.drop_left]
    exact ⟨v, rfl⟩
  · rintro ⟨j, hjle, t, ht⟩
    exact ⟨s.take j, t, by rw [List.append_assoc, ht, List.take_append_drop]⟩

/-- No reported index means the needle is not an infix. -/
theorem not_infix_of_stringsIndex_none {s n : List Byte}
    (h : stringsIndex s n = none) : ¬ n <:+: s := by
  intro hinf
  obtain ⟨j, _, hpre⟩ := infix_iff_exists_drop.mp hinf
  exact stringsIndex_none h j hpre

/-- For a non-empty needle, the needle does not occur inside the bytes strictly
before its first occurrence. -/
theorem not_infix_take_stringsIndex {s n : List Byte} {i : Nat}
    (hne : n ≠ []) (h : stringsIndex s n = some i) : ¬ n <:+: s.take i := by
  intro hinf
  obtain ⟨j, hjle, hpre⟩ := infix_iff_exists_drop.mp hinf
  have hilen : i + n.length ≤ s.length := stringsIndex_bound h
  have hnlen : 1 ≤ n.length := by
    cases n with
    | nil => exact absurd rfl hne
    | cons a l => simp
  have htake : (s.take i).length = i := by
    rw [List.length_take]
    omega
  rw [htake] at hjle
  have hji : j < i := by omega
  -- lift the occurrence from `s.take i` to `s`
  have hdrop : s.drop j = (s.take i).drop j ++ s.drop i := by
    conv_lhs => rw [← List.take_append_drop i s]
    rw [List.drop_append_eq_append_drop, htake, Nat.sub_eq_zero_of_le (by omega),
      List.drop_zero]
  have : n <+: s.drop j := by
    rw [hdrop]
    exact hpre.trans (List.prefix_append _ (s.drop i))
  exact stringsIndex_min h j hji this


/-- Inner extraction loop of `ReadLinesLoop` (`for { idx := strings.Index(line,
delim); if idx < 0 break; onLine(line[:idx]); line = line[idx+len(delim):] }`),
modelled with fuel.  Returns the emitted lines and the residual buffer, or
`none` when the fuel runs out before the loop breaks. -/
def extractLines (delim : List Byte) : Nat → List Byte → Option (List (List Byte) × List Byte)
  | 0, _ => none
  | fuel + 1, line =>
    match stringsIndex line delim with
    | none => some ([], line)
    | some idx =>
      match extractLines delim fuel (line.drop (idx + delim.length)) with
      | none => none
      | some (ls, rest) => some (line.take idx :: ls, rest)

/-- The extraction loop run with the fuel that always suffices for a non-empty
delimiter (one iteration consumes at least one byte of the buffer). -/
def extractRun (delim line : List Byte) : Option (List (List Byte) × List Byte) :=
  extractLines delim (line.length + 1) line

/-- Number of (disjoint, leftmost-first) occurrences of the delimiter in a
byte string, as the spec counts them; fuel-modelled like the loop itself. -/
def specOccCount (delim : List Byte) : Nat → List Byte → Nat
  | 0, _ => 0
  | fuel + 1, s =>
    match stringsIndex s delim with
    | none => 0
    | some idx => specOccCount delim fuel (s.drop (idx + delim.length)) + 1

/-- More fuel never changes a result that was already reached. -/
theorem extractLines_mono {delim : List Byte} {f f' : Nat} {line : List Byte}
    {r : List (List Byte) × List Byte} (hf : f ≤ f')
    (h : extractLines delim f line = some r) :
    extractLines delim f' line = some r := by
  induction f generalizing f' line r with
  | zero => simp [extractLines] at h
  | succ f ih =>
    match f', hf with
    | f' + 1, hf =>
      rw [extractLines] at h ⊢
      cases hidx : stringsIndex line delim with
      | none =>
        simp only [hidx] at h ⊢
        exact h
      | some idx =>
        simp only [hidx] at h ⊢
        cases hrec : extractLines delim f (line.drop (idx + delim.length)) with
        | none => simp [hrec] at h
        | some p =>
          obtain ⟨ls, rest⟩ := p
          simp only [hrec] at h
          rw [ih (Nat.le_of_succ_le_succ hf) hrec]
          exact h

/-- For a non-empty delimiter the loop terminates: any fuel exceeding the
buffer length yields a result. -/
theorem extractLines_total {delim : List Byte} (hd : delim ≠ []) :
    ∀ fuel line, line.length < fuel → (extractLines delim fuel line).isSome := by
  intro fuel
  induction fuel with
  | zero => intro line h; omega
  | succ f ih =>
    intro line hlen
    rw [extractLines]
    cases hidx : stringsIndex line delim with
    | none => simp
    | some idx =>
      have hbound := stringsIndex_bound hidx
      have hdlen : 1 ≤ delim.length := by
        cases delim with
        | nil => exact absurd rfl hd
        | cons a l => simp
      have hlt : (line.drop (idx + delim.length)).length < f := by
        rw [List.length_drop]
        omega
      have hsome := ih (line.drop (idx + delim.length)) hlt
      cases hrec : extractLines delim f (line.drop (idx + delim.length)) with
      | none => rw [hrec] at hsome; simp at hsome
      | some p =>
        obtain ⟨ls, rest⟩ := p
        simp [hrec]

/-- With the empty delimiter the loop never terminates: no fuel suffices. -/
theorem extractLines_nil_delim (fuel : Nat) (line : List Byte) :
    extractLines [] fuel line = none := by
  induction fuel generalizing line with
  | zero => rfl
  | succ f ih =>
    rw [extractLines, stringsIndex_nil_needle]
    simp [ih]

/-- Structure of a successful extraction: the input buffer is exactly the
emitted lines, each followed by one copy of the delimiter, and then the
residual; the residual contains no further occurrence. -/
theorem extractLines_decomp {delim : List Byte} {fuel : Nat} {line : List Byte}
    {ls : List (List Byte)} {rest : List Byte}
    (h : extractLines delim fuel line = some (ls, rest)) :
    (ls.map (fun l => l ++ delim)).flatten ++ rest = line ∧
      stringsIndex rest delim = none := by
  induction fuel generalizing line ls with
  | zero => simp [extractLines] at h
  | succ f ih =>
    rw [extractLines] at h
    cases hidx : stringsIndex line delim with
    | none =>
      simp only [hidx, Option.some.injEq, Prod.mk.injEq] at h
      obtain ⟨h1, h2⟩ := h
      subst h1; subst h2
      exact ⟨by simp, hidx⟩
    | some idx =>
      simp only [hidx] at h
      cases hrec : extractLines delim f (line.drop (idx + delim.length)) with
      | none => simp [hrec] at h
      | some p =>
        obtain ⟨ls₀, rest₀⟩ := p
        simp only [hrec, Option.some.injEq, Prod.mk.injEq] at h
        obtain ⟨h1, h2⟩ := h
        subst h1; subst h2
        obtain ⟨ihd, ihn⟩ := ih hrec
        refine ⟨?_, ihn⟩
        obtain ⟨t, ht⟩ := stringsIndex_occurrence hidx
        have hdd : line.drop (idx + delim.length) = t := by
          have hstep := congrArg (List.drop delim.length) ht
          rw [List.drop_left, List.drop_drop] at hstep
          exact hstep.symm
        have hline : line.take idx ++ delim ++ line.drop (idx + delim.length) = line := by
          rw [hdd, List.append_assoc, ht, List.take_append_drop]
        rw [← ihd] at hline
        simpa [List.append_assoc] using hline

/-- No emitted line contains the delimiter (each line is the stretch strictly
before the first occurrence in the buffer it was cut from). -/
theorem extractLines_no_delim {delim : List Byte} {fuel : Nat} {line : List Byte}
    {ls : List (List Byte)} {rest : List Byte}
    (h : extractLines delim fuel line = some (ls, rest)) :
    (∀ l ∈ ls, ¬ delim <:+: l) ∧ ¬ delim <:+: rest := by
  by_cases hd : delim = []
  · subst hd
    rw [extractLines_nil_delim] at h
    cases h
  · induction fuel generalizing line ls with
    | zero => simp [extractLines] at h
    | succ f ih =>
      rw [extractLines] at h
      cases hidx : stringsIndex line delim with
      | none =>
        simp only [hidx, Option.some.injEq, Prod.mk.injEq] at h
        obtain ⟨h1, h2⟩ := h
        subst h1; subst h2
        exact ⟨by simp, not_infix_of_stringsIndex_none hidx⟩
      | some idx =>
        simp only [hidx] at h
        cases hrec : extractLines delim f (line.drop (idx + delim.length)) with
        | none => simp [hrec] at h
        | some p =>
          obtain ⟨ls₀, rest₀⟩ := p
          simp only [hrec, Option.some.injEq, Prod.mk.injEq] at h
          obtain ⟨h1, h2⟩ := h
          subst h1; subst h2
          obtain ⟨ihls, ihrest⟩ := ih hrec
          refine ⟨?_, ihrest⟩
          intro l hl
          rcases List.mem_cons.mp hl with hhead | htail
          · subst hhead
            exact not_infix_take_stringsIndex hd hidx
          · exact ihls l htail

/-- The number of lines the loop emits is the spec-side occurrence count. -/
theorem extractLines_length_eq_specOccCount {delim : List Byte} {fuel : Nat}
    {line : List Byte} {ls : List (List Byte)} {rest : List Byte}
    (h : extractLines delim fuel line = some (ls, rest)) :
    ls.length = specOccCount delim fuel line := by
  induction fuel generalizing line ls with
  | zero => simp [extractLines] at h
  | succ f ih =>
    rw [extractLines] at h
    rw [specOccCount]
    cases hidx : stringsIndex line delim with
    | none =>
      simp only [hidx, Option.some.injEq, Prod.mk.injEq] at h ⊢
      obtain ⟨h1, h2⟩ := h
      subst h1
      simp
    | some idx =>
      simp only [hidx] at h ⊢
      cases hrec : extractLines delim f (line.drop (idx + delim.length)) with
      | none => simp [hrec] at h
      | some p =>
        obtain ⟨ls₀, rest₀⟩ := p
        simp only [hrec, Option.some.injEq, Prod.mk.injEq] at h
        obtain ⟨h1, h2⟩ := h
        subst h1; subst h2
        simp [ih hrec]

/-- Extraction composes across an append: running the loop on `a ++ b` is
running it on `a` and then on the residual extended by `b`. -/
theorem extractLines_append {delim : List Byte} {f₁ f₂ : Nat} {a b : List Byte}
    {ls : List (List Byte)} {r : List Byte} {ls' : List (List Byte)} {r' : List Byte}
    (h₁ : extractLines delim f₁ a = some (ls, r))
    (h₂ : extractLines delim f₂ (r ++ b) = some (ls', r')) :
    extractLines delim (f₁ + f₂) (a ++ b) = some (ls ++ ls', r') := by
  induction f₁ generalizing a ls with
  | zero => simp [extractLines] at h₁
  | succ f ih =>
    rw [extractLines] at h₁
    cases hidx : stringsIndex a delim with
    | none =>
      simp only [hidx, Option.some.injEq, Prod.mk.injEq] at h₁
      obtain ⟨h1, h2⟩ := h₁
      subst h1; subst h2
      simpa using extractLines_mono (Nat.le_add_left f₂ (f + 1)) h₂
    | some idx =>
      simp only [hidx] at h₁
      cases hrec : extractLines delim f (a.drop (idx + delim.length)) with
      | none => simp [hrec] at h₁
      | some p =>
        obtain ⟨ls₀, rest₀⟩ := p
        simp only [hrec, Option.some.injEq, Prod.mk.injEq] at h₁
        obtain ⟨h1, h2⟩ := h₁
        subst h1; subst h2
        have hbound := stringsIndex_bound hidx
        have hidx' : stringsIndex (a ++ b) delim = some idx := stringsIndex_append b hidx
        have hih := ih hrec
        have hdropa : (a ++ b).drop (idx + delim.length) = a.drop (idx + delim.length) ++ b := by
          rw [List.drop_append_eq_append_drop, Nat.sub_eq_zero_of_le hbound, List.drop_zero]
        have htakea : (a ++ b).take idx = a.take idx := by
          rw [List.take_append_eq_append_take, Nat.sub_eq_zero_of_le (by omega),
            List.take_zero, List.append_nil]
        show extractLines delim (f + 1 + f₂) (a ++ b) = _
        have hfuel : f + 1 + f₂ = (f + f₂) + 1 := by omega
        rw [hfuel, extractLines, hidx']
        simp only [hdropa, hih, htakea]
        rfl

/-- Two successful extractions of the same buffer agree, whatever the fuels. -/
theorem extractLines_unique {delim : List Byte} {f f' : Nat} {line : List Byte}
    {r r' : List (List Byte) × List Byte}
    (h : extractLines delim f line = some r)
    (h' : extractLines delim f' line = some r') : r = r' := by
  rcases Nat.le_total f f' with hf | hf
  · have hmono := extractLines_mono hf h
    rw [hmono] at h'
    exact Option.some_inj.mp h'
  · have hmono := extractLines_mono hf h'
    rw [hmono] at h
    exact (Option.some_inj.mp h).symm

/-- Data path of `ReadLinesLoop` over a finite sequence of raw byte chunks
(the bytes successive `file.Read` calls deliver): each chunk is appended to
the accumulation buffer `line` and the inner extraction loop runs to
completion.  `none` marks divergence of the inner loop. -/
def runLoop (delim : List Byte) : List Byte → List (List Byte) → Option (List (List Byte) × List Byte)
  | line, [] => some ([], line)
  | line, chunk :: rest =>
    match extractRun delim (line ++ chunk) with
    | none => none
    | some (ls, line') =>
      match runLoop delim line' rest with
      | none => none
      | some (ls', final) => some (ls ++ ls', final)

/-- Data path of the one-shot `ReadLine` over a chunk sequence: chunks are
accumulated until the delimiter first occurs, and the bytes strictly before
that first occurrence are returned.  `none` means no complete line arrived
(the call would still be blocked waiting for more data). -/
def readLineGo (delim : List Byte) : List Byte → List (List Byte) → Option (List Byte)
  | _, [] => none
  | line, chunk :: rest =>
    match stringsIndex (line ++ chunk) delim with
    | some idx => some ((line ++ chunk).take idx)
    | none => readLineGo delim (line ++ chunk) rest

/-- Chunking independence: feeding the chunks one by one produces the same
lines and residual as one extraction pass over the whole concatenation. -/
theorem runLoop_eq_extract {delim : List Byte} (hd : delim ≠ []) :
    ∀ (chunks : List (List Byte)) (line : List Byte),
      stringsIndex line delim = none →
      ∃ ls rest, runLoop delim line chunks = some (ls, rest) ∧
        extractRun delim (line ++ chunks.flatten) = some (ls, rest) := by
  intro chunks
  induction chunks with
  | nil =>
    intro line hclean
    refine ⟨[], line, rfl, ?_⟩
    rw [extractRun, extractLines]
    simp [hclean]
  | cons chunk rest ih =>
    intro line hclean
    have htot := extractLines_total hd ((line ++ chunk).length + 1) (line ++ chunk)
      (Nat.lt_succ_self _)
    obtain ⟨p, hp⟩ := Option.isSome_iff_exists.mp htot
    obtain ⟨ls₁, line₁⟩ := p
    have hclean₁ : stringsIndex line₁ delim = none := (extractLines_decomp hp).2
    obtain ⟨ls₂, final, hrun, hext⟩ := ih line₁ hclean₁
    refine ⟨ls₁ ++ ls₂, final, ?_, ?_⟩
    · rw [runLoop]
      simp only [extractRun] at hp ⊢
      simp only [hp, hrun]
    · have happ := extractLines_append hp hext
      have hassoc : (line ++ chunk) ++ rest.flatten = line ++ (chunk :: rest).flatten := by
        simp [List.append_assoc]
      rw [hassoc] at happ
      have htot' := extractLines_total hd ((line ++ (chunk :: rest).flatten).length + 1)
        (line ++ (chunk :: rest).flatten) (Nat.lt_succ_self _)
      obtain ⟨q, hq⟩ := Option.isSome_iff_exists.mp htot'
      rw [extractRun, hq]
      exact congrArg some (extractLines_unique hq happ)

/-- Everything the one-shot `ReadLine` returns: the result has no delimiter
occurrence and the result followed by the delimiter is an initial segment of
the accumulated byte stream. -/
theorem readLineGo_spec {delim : List Byte} (hd : delim ≠ []) :
    ∀ (chunks : List (List Byte)) (line : List Byte) {l : List Byte},
      readLineGo delim line chunks = some l →
      ¬ delim <:+: l ∧ l ++ delim <+: line ++ chunks.flatten := by
  intro chunks
  induction chunks with
  | nil => intro line l h; simp [readLineGo] at h
  | cons chunk rest ih =>
    intro line l h
    rw [readLineGo] at h
    cases hidx : stringsIndex (line ++ chunk) delim with
    | some idx =>
      simp only [hidx, Option.some.injEq] at h
      subst h
      refine ⟨not_infix_take_stringsIndex hd hidx, ?_⟩
      obtain ⟨t, ht⟩ := stringsIndex_occurrence hidx
      have hsplit : ((line ++ chunk).take idx ++ delim) ++ t = line ++ chunk := by
        rw [List.append_assoc, ht, List.take_append_drop]
      refine List.IsPrefix.trans ⟨t, hsplit⟩ ?_
      rw [List.flatten_cons, ← List.append_assoc]
      exact List.prefix_append (line ++ chunk) rest.flatten
    | none =>
      simp only [hidx] at h
      have hih := ih (line ++ chunk) h
      simpa [List.append_assoc] using hih

/-- Error values the Go code can produce, by construction site. -/
inductive GoError where
  | serialReaderClosed
  | fileAlreadyClosed
  | pollFailed
  | readFailed
  | openFailed
  | getTermiosFailed
  | setTermiosFailed
  | pipeFailed
  deriving DecidableEq, Repr

/-- Operations performed on the Reader's owned OS resources. -/
inductive ResOp where
  | closeDoneChan
  | pipeWakeWrite
  | closeDevice
  | closePipeR
  | closePipeW
  | pipeDrainRead
  | deviceRead
  | deviceWrite
  | pollWait
  deriving DecidableEq, Repr

/-- State of one `SerialReader` value: the `done` channel, the `closeOnce`
guard, the `os.File` handle, the raw device descriptor it wraps, the two
self-pipe descriptors, and a count of executed teardown bodies. -/
structure ReaderState where
  doneClosed : Bool
  onceUsed : Bool
  fileOpen : Bool
  fdOpen : Bool
  pipeROpen : Bool
  pipeWOpen : Bool
  teardowns : Nat
  deriving DecidableEq, Repr

/-- The state `Open` returns on success. -/
def openReader : ReaderState :=
  { doneClosed := false, onceUsed := false, fileOpen := true, fdOpen := true,
    pipeROpen := true, pipeWOpen := true, teardowns := 0 }

/-- `s.file.Close()`: closing the `os.File` handle closes the device
descriptor it wraps; a second close returns an already-closed error with no
system call. -/
def fileClose (s : ReaderState) : ReaderState × Option GoError × List ResOp :=
  if s.fileOpen then
    ({ s with fileOpen := false, fdOpen := false }, none, [ResOp.closeDevice])
  else (s, some GoError.fileAlreadyClosed, [])

/-- `syscall.Close(s.fd)`: unconditionally issues `close(2)` on the stored
device-descriptor number (it fails with `EBADF` when the descriptor is
already closed; the call site discards the result). -/
def rawFdClose (s : ReaderState) : ReaderState × List ResOp :=
  ({ s with fdOpen := false }, [ResOp.closeDevice])

/-- Result of one `Close()` call: new state, returned error, resource trace. -/
structure CloseResult where
  state : ReaderState
  err : Option GoError
  ops : List ResOp
  deriving DecidableEq, Repr

/-- `Close()`: the `closeOnce.Do` body closes the `done` channel, writes the
wakeup byte, closes the file handle, calls `syscall.Close` on the raw
descriptor, then closes both pipe ends; with the once guard already used the
call does nothing and returns the zero-valued `err`. -/
def closeReader (s : ReaderState) : CloseResult :=
  if s.onceUsed then ⟨s, none, []⟩
  else
    let s₁ := { s with onceUsed := true, doneClosed := true, teardowns := s.teardowns + 1 }
    let r₂ := fileClose s₁
    let r₃ := rawFdClose r₂.1
    let s₄ := { r₃.1 with pipeROpen := false, pipeWOpen := false }
    ⟨s₄, r₂.2.1, [ResOp.closeDoneChan, ResOp.pipeWakeWrite] ++ r₂.2.2 ++ r₃.2
      ++ [ResOp.closePipeR, ResOp.closePipeW]⟩

/-- `n` successive `Close()` calls; the errors in call order. -/
def closeN : Nat → ReaderState → ReaderState × List (Option GoError)
  | 0, s => (s, [])
  | n + 1, s =>
    let r := closeReader s
    let rs := closeN n r.state
    (rs.1, r.err :: rs.2)

/-- The state after the first effective `Close()`. -/
def closedReader : ReaderState := (closeReader openReader).state

/-- `WriteLine`: one blocking write of `line ++ newline` through the file
handle; on a closed handle Go reports an already-closed error with no device
I/O. -/
def writeLine (s : ReaderState) (_line _newline : List Byte) : Option GoError × List ResOp :=
  if s.fileOpen then (none, [ResOp.deviceWrite])
  else (some GoError.fileAlreadyClosed, [])

/-- Outcome of one `unix.Poll` over the device descriptor and the self-pipe
read end: whether poll itself failed, and the two `POLLIN` readiness bits. -/
structure PollOutcome where
  pollErr : Bool
  devReady : Bool
  pipeReady : Bool
  deriving DecidableEq, Repr

/-- Poll outcome observed once `Close` has released the descriptors: poll
succeeds and both entries report `POLLNVAL`, so neither `POLLIN` bit is set. -/
def closedPoll : PollOutcome :=
  { pollErr := false, devReady := false, pipeReady := false }

/-- Poll outcome when the wakeup byte is pending on the self-pipe, with or
without device data also pending. -/
def wakeupPoll (dev : Bool) : PollOutcome :=
  { pollErr := false, devReady := dev, pipeReady := true }

/-- Result of the `s.file.Read(buf)` call in a loop body. -/
inductive ReadResult where
  | ok (bytes : List Byte)
  | fail (e : GoError)
  deriving DecidableEq, Repr

/-- Outcome of one iteration of the `ReadLine` wait loop. -/
inductive ReadLineOut where
  | fail (e : GoError)
  | line (l : List Byte)
  | more (buf : List Byte)
  deriving DecidableEq, Repr

/-- One iteration of `ReadLine` (source order: poll, done-channel check,
wakeup-pipe check with one-byte drain, device read, delimiter scan). -/
def readLineIter (delim : List Byte) (s : ReaderState) (p : PollOutcome)
    (rr : ReadResult) (line : List Byte) : ReadLineOut × List ResOp :=
  if p.pollErr then (ReadLineOut.fail GoError.pollFailed, [ResOp.pollWait])
  else if s.doneClosed then (ReadLineOut.fail GoError.serialReaderClosed, [ResOp.pollWait])
  else if p.pipeReady then
    (ReadLineOut.fail GoError.serialReaderClosed, [ResOp.pollWait, ResOp.pipeDrainRead])
  else if p.devReady then
    match rr with
    | ReadResult.fail e => (ReadLineOut.fail e, [ResOp.pollWait, ResOp.deviceRead])
    | ReadResult.ok bytes =>
      match stringsIndex (line ++ bytes) delim with
      | some idx =>
        (ReadLineOut.line ((line ++ bytes).take idx), [ResOp.pollWait, ResOp.deviceRead])
      | none => (ReadLineOut.more (line ++ bytes), [ResOp.pollWait, ResOp.deviceRead])
  else (ReadLineOut.more line, [ResOp.pollWait])

/-- Outcome of one iteration of `ReadLinesLoop`: terminal error callback,
silent return, or the lines passed to `onLine` plus the new buffer
(`emit [] buf` is an iteration that emitted nothing and continues);
`diverge` marks non-termination of the inner extraction loop. -/
inductive LoopOut where
  | errorCallback (e : GoError)
  | shutdown
  | emit (ls : List (List Byte)) (buf : List Byte)
  | diverge
  deriving DecidableEq, Repr

/-- One iteration of `ReadLinesLoop` (source order: poll, done-channel check,
wakeup-pipe check with one-byte drain, device read, extraction loop). -/
def loopIter (delim : List Byte) (s : ReaderState) (p : PollOutcome)
    (rr : ReadResult) (line : List Byte) : LoopOut × List ResOp :=
  if p.pollErr then (LoopOut.errorCallback GoError.pollFailed, [ResOp.pollWait])
  else if s.doneClosed then (LoopOut.shutdown, [ResOp.pollWait])
  else if p.pipeReady then (LoopOut.shutdown, [ResOp.pollWait, ResOp.pipeDrainRead])
  else if p.devReady then
    match rr with
    | ReadResult.fail e => (LoopOut.errorCallback e, [ResOp.pollWait, ResOp.deviceRead])
    | ReadResult.ok bytes =>
      match extractRun delim (line ++ bytes) with
      | some (ls, rest) => (LoopOut.emit ls rest, [ResOp.pollWait, ResOp.deviceRead])
      | none => (LoopOut.diverge, [ResOp.pollWait, ResOp.deviceRead])
  else (LoopOut.emit [] line, [ResOp.pollWait])

/-- Which of `Open`'s fallible steps fail in a given run. -/
structure OpenEnv where
  openFails : Bool
  getTermiosFails : Bool
  setTermiosFails : Bool
  pipeFails : Bool
  deriving DecidableEq, Repr

/-- System-level actions taken by `Open`. -/
inductive OpenAction where
  | devOpen
  | tcGetAttr
  | tcSetAttr
  | setNonblockOff
  | pipeCreate
  | devClose
  deriving DecidableEq, Repr

/-- Result of `Open`: the reader (on success), the error, the action trace. -/
structure OpenOut where
  reader : Option ReaderState
  err : Option GoError
  actions : List OpenAction
  deriving DecidableEq, Repr

/-- Control structure of `Open(cfg)`: open the device, fetch the attribute
block, commit it, revert to blocking mode, create the self-pipe.  Every error
path returns at once, running no cleanup action. -/
def openGo (env : OpenEnv) : OpenOut :=
  if env.openFails then ⟨none, some GoError.openFailed, [OpenAction.devOpen]⟩
  else if env.getTermiosFails then
    ⟨none, some GoError.getTermiosFailed, [OpenAction.devOpen, OpenAction.tcGetAttr]⟩
  else if env.setTermiosFails then
    ⟨none, some GoError.setTermiosFailed,
      [OpenAction.devOpen, OpenAction.tcGetAttr, OpenAction.tcSetAttr]⟩
  else if env.pipeFails then
    ⟨none, some GoError.pipeFailed,
      [OpenAction.devOpen, OpenAction.tcGetAttr, OpenAction.tcSetAttr,
        OpenAction.setNonblockOff, OpenAction.pipeCreate]⟩
  else
    ⟨some openReader, none,
      [OpenAction.devOpen, OpenAction.tcGetAttr, OpenAction.tcSetAttr,
        OpenAction.setNonblockOff, OpenAction.pipeCreate]⟩

/-- Linux baud constants (`asm-generic/termbits.h`, via `golang.org/x/sys/unix`). -/
def B9600 : Nat := 0x0000000d

def B19200 : Nat := 0x0000000e

def B38400 : Nat := 0x0000000f

def B57600 : Nat := 0x00001001

def B115200 : Nat := 0x00001002

def B230400 : Nat := 0x00001003

/-- `baudToUnix`: finite lookup over the six supported rates with a silent
fallback to the 115200 constant. -/
def baudToUnix (baud : Int) : Nat :=
  if baud = 9600 then B9600
  else if baud = 19200 then B19200
  else if baud = 38400 then B38400
  else if baud = 57600 then B57600
  else if baud = 115200 then B115200
  else if baud = 230400 then B230400
  else B115200

/-- The documented default delimiter (`Config.Delimiter` doc comment and
package docs): carriage return followed by line feed. -/
def CRLF : List Byte := [13, 10]

theorem stringsIndex_nil_hay {delim : List Byte} (hd : delim ≠ []) :
    stringsIndex [] delim = none := by
  rw [stringsIndex, stringsIndexAux]
  have he : delim.isEmpty = false := by
    cases delim with
    | nil => exact absurd rfl hd
    | cons a l => rfl
  simp [he]

/-- Claim C1: for every finite sequence of byte chunks fed through the
continuous read loop whose concatenation contains exactly k occurrences of a
non-empty delimiter (occurrences counted disjointly, left to right, the only
reading under which "the substring strictly between successive occurrences"
is well defined), the line callback is invoked exactly k times, in order,
with the i-th invocation carrying the substring strictly between the
(i-1)-th and the i-th occurrence, independently of how the bytes were split
across chunks: the loop's emitted list equals the one a single extraction
pass over the undivided concatenation produces, its length is the occurrence
count, and the lines, each followed by one delimiter copy, followed by the
residual, reassemble the concatenation, with no occurrence inside any line
or the residual. -/
theorem claim_C1_line_framing (delim : List Byte) (chunks : List (List Byte))
    (hd : delim ≠ []) :
    ∃ ls rest,
      runLoop delim [] chunks = some (ls, rest) ∧
      extractRun delim chunks.flatten = some (ls, rest) ∧
      ls.length = specOccCount delim (chunks.flatten.length + 1) chunks.flatten ∧
      (ls.map (fun l => l ++ delim)).flatten ++ rest = chunks.flatten ∧
      (∀ l ∈ ls, ¬ delim <:+: l) ∧
      ¬ delim <:+: rest := by
  obtain ⟨ls, rest, hrun, hext⟩ :=
    runLoop_eq_extract hd chunks [] (stringsIndex_nil_hay hd)
  rw [List.nil_append] at hext
  refine ⟨ls, rest, hrun, hext, ?_, ?_, ?_, ?_⟩
  · exact extractLines_length_eq_specOccCount hext
  · exact (extractLines_decomp hext).1
  · exact (extractLines_no_delim hext).1
  · exact (extractLines_no_delim hext).2

theorem claim_C1_witness :
    ∃ ls rest,
      runLoop [10] [] [[104, 101, 108], [108, 111, 10]] = some (ls, rest) ∧
      extractRun [10] ([[104, 101, 108], [108, 111, 10]] : List (List Byte)).flatten
        = some (ls, rest) ∧
      ls.length = specOccCount [10]
        ((([[104, 101, 108], [108, 111, 10]] : List (List Byte)).flatten).length + 1)
        ([[104, 101, 108], [108, 111, 10]] : List (List Byte)).flatten ∧
      (ls.map (fun l => l ++ [10])).flatten ++ rest
        = ([[104, 101, 108], [108, 111, 10]] : List (List Byte)).flatten ∧
      (∀ l ∈ ls, ¬ [10] <:+: l) ∧
      ¬ [10] <:+: rest :=
  claim_C1_line_framing [10] [[104, 101, 108], [108, 111, 10]] (by decide)

/-- Claim C2 as stated is false: it quantifies over every configured
delimiter value, but with the empty delimiter configured ReadLine on the
chunk "a" delivers the empty line, and the empty delimiter is an occurrence
inside (an infix of) that delivered line. -/
theorem claim_C2_counterexample :
    readLineGo [] [] [[97]] = some [] ∧ ([] : List Byte) <:+: ([] : List Byte) :=
  ⟨rfl, ⟨[], [], rfl⟩⟩

/-- Claim C2 amended (restricted to non-empty configured delimiters): every
line delivered to the caller — returned by the one-shot ReadLine or passed to
the ReadLinesLoop callback — contains no occurrence of the delimiter, and the
delimiter bytes are consumed and never delivered: ReadLine's line followed by
the delimiter is an initial segment of the byte stream, and the loop's lines,
each followed by one consumed delimiter copy, plus the residual buffer,
reassemble the stream exactly. -/
theorem claim_C2_no_delimiter_delivered (delim : List Byte) (chunks : List (List Byte))
    (hd : delim ≠ []) :
    (∀ l, readLineGo delim [] chunks = some l →
      ¬ delim <:+: l ∧ l ++ delim <+: chunks.flatten) ∧
    (∀ ls rest, runLoop delim [] chunks = some (ls, rest) →
      (∀ l ∈ ls, ¬ delim <:+: l) ∧
      (ls.map (fun l => l ++ delim)).flatten ++ rest = chunks.flatten) := by
  constructor
  · intro l h
    have hspec := readLineGo_spec hd chunks [] h
    simpa using hspec
  · intro ls rest h
    obtain ⟨ls', rest', hrun, hext⟩ :=
      runLoop_eq_extract hd chunks [] (stringsIndex_nil_hay hd)
    rw [h, Option.some_inj] at hrun
    obtain ⟨h1, h2⟩ := Prod.mk.injEq .. ▸ hrun.symm
    subst h1; subst h2
    rw [List.nil_append] at hext
    exact ⟨(extractLines_no_delim hext).1, (extractLines_decomp hext).1⟩

theorem claim_C2_witness :
    ¬ ([10] : List Byte) <:+: [112, 105, 110, 103] ∧
      [112, 105, 110, 103] ++ [10] <+: ([[112, 105, 110, 103, 10]] : List (List Byte)).flatten :=
  (claim_C2_no_delimiter_delivered [10] [[112, 105, 110, 103, 10]] (by decide)).1
    [112, 105, 110, 103] rfl

/-- Claim C4 fails on the code: `Open` never substitutes the documented CRLF
default, so with the delimiter field left empty the Reader frames on the
empty string — ReadLine returns the empty line immediately and the extraction
loop of ReadLinesLoop never terminates — while actual CRLF framing on the
same input "a\r\nb" would deliver the line "a". -/
theorem claim_C4_empty_delimiter_not_crlf :
    readLineGo [] [] [[97, 13, 10, 98]] = some [] ∧
    readLineGo CRLF [] [[97, 13, 10, 98]] = some [97] ∧
    runLoop [] [] [[97, 13, 10, 98]] = none ∧
    runLoop CRLF [] [[97, 13, 10, 98]] = some ([[97]], [98]) := by
  refine ⟨rfl, ?_, ?_, ?_⟩ <;> decide

/-- Claim C10: whenever the configured delimiter is non-empty, the inner
line-extraction loop of ReadLinesLoop terminates for every accumulation
buffer (each extracted line removes at least the delimiter's length, and
fuel one beyond the buffer length suffices); the hypothesis is essential:
with the empty delimiter no amount of fuel makes the loop break. -/
theorem claim_C10_extraction_termination :
    (∀ delim line : List Byte, delim ≠ [] →
      (extractLines delim (line.length + 1) line).isSome) ∧
    (∀ (fuel : Nat) (line : List Byte), extractLines [] fuel line = none) :=
  ⟨fun _ line hd => extractLines_total hd _ line (Nat.lt_succ_self _),
    extractLines_nil_delim⟩

theorem claim_C10_witness :
    (extractLines [13, 10] (([97, 13, 10] : List Byte).length + 1) [97, 13, 10]).isSome :=
  claim_C10_extraction_termination.1 [13, 10] [97, 13, 10] (by decide)

/-- Discriminator: did a loop iteration end by invoking the error callback? -/
def LoopOut.isErrorCallback : LoopOut → Bool
  | LoopOut.errorCallback _ => true
  | _ => false

theorem closeReader_openReader :
    closeReader openReader =
      ⟨closedReader, none,
        [ResOp.closeDoneChan, ResOp.pipeWakeWrite, ResOp.closeDevice,
          ResOp.closeDevice, ResOp.closePipeR, ResOp.closePipeW]⟩ := rfl

theorem closeReader_closedReader : closeReader closedReader = ⟨closedReader, none, []⟩ := rfl

theorem closeN_closedReader (m : Nat) :
    closeN m closedReader = (closedReader, List.replicate m none) := by
  induction m with
  | zero => rfl
  | succ k ih => simp [closeN, closeReader_closedReader, ih, List.replicate_succ]

/-- Claim C3: Close is idempotent: for every N ≥ 1, N successive Close calls
perform the teardown of the owned resources exactly once, every one of the N
calls returns no error, and every call after the first is a no-op that
reports success (it leaves the state unchanged, performs no resource
operation, and returns no error). -/
theorem claim_C3_close_idempotent (n : Nat) (hn : 1 ≤ n) :
    (closeN n openReader).1.teardowns = 1 ∧
    (closeN n openReader).2 = List.replicate n none ∧
    closeReader (closeN n openReader).1 = ⟨(closeN n openReader).1, none, []⟩ := by
  match n, hn with
  | m + 1, _ =>
    have hstep : closeN (m + 1) openReader
        = ((closeN m closedReader).1, none :: (closeN m closedReader).2) := rfl
    rw [hstep, closeN_closedReader]
    exact ⟨rfl, by simp [List.replicate_succ], closeReader_closedReader⟩

theorem claim_C3_witness :
    (closeN 3 openReader).1.teardowns = 1 ∧
    (closeN 3 openReader).2 = List.replicate 3 none ∧
    closeReader (closeN 3 openReader).1 = ⟨(closeN 3 openReader).1, none, []⟩ :=
  claim_C3_close_idempotent 3 (by decide)

/-- Claim C5 as stated is false: ReadLinesLoop invoked after Close has
completed does not fail with a closed-state error — the iteration observes
the closed flag and returns silently, invoking neither the line callback nor
the error callback. -/
theorem claim_C5_counterexample :
    loopIter [10] closedReader closedPoll (ReadResult.ok [97]) []
        = (LoopOut.shutdown, [ResOp.pollWait]) ∧
      LoopOut.isErrorCallback LoopOut.shutdown = false := ⟨rfl, rfl⟩

/-- Claim C5 amended: after a Close call has completed, WriteLine and the
one-shot ReadLine fail with a closed-state error, ReadLinesLoop terminates
silently invoking neither callback, and none of the three transfers data
through the released resources: no device read, no device write and no pipe
drain occur (the readiness wait is re-issued on the stale descriptor
numbers, which report invalid with no data transfer). -/
theorem claim_C5_after_close (delim line newline buf : List Byte) (rr : ReadResult) :
    writeLine closedReader line newline = (some GoError.fileAlreadyClosed, []) ∧
    readLineIter delim closedReader closedPoll rr buf
      = (ReadLineOut.fail GoError.serialReaderClosed, [ResOp.pollWait]) ∧
    loopIter delim closedReader closedPoll rr buf = (LoopOut.shutdown, [ResOp.pollWait]) :=
  ⟨rfl, rfl, rfl⟩

theorem claim_C5_witness :
    writeLine closedReader [97] [13, 10] = (some GoError.fileAlreadyClosed, []) ∧
    readLineIter [10] closedReader closedPoll (ReadResult.ok []) []
      = (ReadLineOut.fail GoError.serialReaderClosed, [ResOp.pollWait]) ∧
    loopIter [10] closedReader closedPoll (ReadResult.ok []) []
      = (LoopOut.shutdown, [ResOp.pollWait]) :=
  claim_C5_after_close [10] [97] [13, 10] [] (ReadResult.ok [])

/-- Claim C6 fails on the code: the teardown issues a close of the device
descriptor twice — `file.Close()` closes the descriptor the `os.File` wraps,
and `syscall.Close(s.fd)` then closes the very same descriptor number again
(failing with `EBADF`, which is discarded) — so the raw device descriptor is
not released exactly once; the fixed order and the single release of each
pipe end do hold. -/
theorem claim_C6_device_double_close :
    (closeReader openReader).ops =
      [ResOp.closeDoneChan, ResOp.pipeWakeWrite, ResOp.closeDevice,
        ResOp.closeDevice, ResOp.closePipeR, ResOp.closePipeW] ∧
    (closeReader openReader).ops.count ResOp.closeDevice = 2 ∧
    (closeReader openReader).ops.count ResOp.closePipeR = 1 ∧
    (closeReader openReader).ops.count ResOp.closePipeW = 1 := by
  refine ⟨rfl, ?_, ?_, ?_⟩ <;> decide

/-- Claim C7 is false for the one-shot ReadLine: with the wakeup pipe ready,
ReadLine drains the byte and then returns the closed-state error — an error
outcome, not the claimed error-free termination. -/
theorem claim_C7_counterexample :
    readLineIter [10] openReader (wakeupPoll false) (ReadResult.ok []) []
      = (ReadLineOut.fail GoError.serialReaderClosed,
          [ResOp.pollWait, ResOp.pipeDrainRead]) := rfl

/-- Claim C7 amended: when the wakeup-signal read endpoint becomes ready,
ReadLinesLoop drains one byte from it and terminates with no error and no
callback invocation, whether or not device data is also pending; the
one-shot ReadLine, running the same algorithm, likewise drains the byte but
terminates this shutdown path with a closed-state error (it has no
error-free outcome without a line). -/
theorem claim_C7_wakeup_shutdown (delim buf : List Byte) (dev : Bool) (rr : ReadResult) :
    loopIter delim openReader (wakeupPoll dev) rr buf
      = (LoopOut.shutdown, [ResOp.pollWait, ResOp.pipeDrainRead]) ∧
    readLineIter delim openReader (wakeupPoll dev) rr buf
      = (ReadLineOut.fail GoError.serialReaderClosed,
          [ResOp.pollWait, ResOp.pipeDrainRead]) :=
  ⟨rfl, rfl⟩

theorem claim_C7_witness :
    loopIter [10] openReader (wakeupPoll true) (ReadResult.ok [97]) []
      = (LoopOut.shutdown, [ResOp.pollWait, ResOp.pipeDrainRead]) ∧
    readLineIter [10] openReader (wakeupPoll true) (ReadResult.ok [97]) []
      = (ReadLineOut.fail GoError.serialReaderClosed,
          [ResOp.pollWait, ResOp.pipeDrainRead]) :=
  claim_C7_wakeup_shutdown [10] [] true (ReadResult.ok [97])

/-- Claim C8: the baud-rate mapping is a total function on the integers: each
of the six supported rates maps to its Linux constant, and every other
integer silently falls back to the constant for 115200. -/
theorem claim_C8_baud_table :
    baudToUnix 9600 = B9600 ∧ baudToUnix 19200 = B19200 ∧
    baudToUnix 38400 = B38400 ∧ baudToUnix 57600 = B57600 ∧
    baudToUnix 115200 = B115200 ∧ baudToUnix 230400 = B230400 ∧
    ∀ b : Int, b ≠ 9600 → b ≠ 19200 → b ≠ 38400 → b ≠ 57600 → b ≠ 115200 →
      b ≠ 230400 → baudToUnix b = B115200 := by
  refine ⟨rfl, rfl, rfl, rfl, rfl, rfl, ?_⟩
  intro b h1 h2 h3 h4 h5 h6
  simp [baudToUnix, h1, h2, h3, h4, h5, h6]

theorem claim_C8_witness : baudToUnix 300 = B115200 :=
  claim_C8_baud_table.2.2.2.2.2.2 300 (by decide) (by decide) (by decide)
    (by decide) (by decide) (by decide)

/-- Claim C9 (implicit): when Open fails at a step after the device was
opened — the attribute fetch, the attribute commit, or the pipe creation —
it returns the wrapped error without closing the already-opened device
descriptor: the action trace contains the device open and no device close,
so the descriptor remains open in the process. -/
theorem claim_C9_open_error_leaks_descriptor (env : OpenEnv)
    (hopen : env.openFails = false)
    (hfail : env.getTermiosFails = true ∨ env.setTermiosFails = true ∨ env.pipeFails = true) :
    (openGo env).reader = none ∧
    (openGo env).err.isSome = true ∧
    OpenAction.devOpen ∈ (openGo env).actions ∧
    OpenAction.devClose ∉ (openGo env).actions := by
  obtain ⟨o, g, st, pi⟩ := env
  simp only at hopen
  subst hopen
  revert hfail
  cases g <;> cases st <;> cases pi <;> decide

theorem claim_C9_witness :
    (openGo ⟨false, true, false, false⟩).reader = none ∧
    (openGo ⟨false, true, false, false⟩).err.isSome = true ∧
    OpenAction.devOpen ∈ (openGo ⟨false, true, false, false⟩).actions ∧
    OpenAction.devClose ∉ (openGo ⟨false, true, false, false⟩).actions :=
  claim_C9_open_error_leaks_descriptor ⟨false, true, false, false⟩ rfl (Or.inl rfl)

end GoSerial
